import Mathlib

/-!
Shallow embedding of `oeis_A300793.py`, a program computing entries of the
integer sequence OEIS A300793 by two independent recurrences and
cross-validating them.

Python list indexing can raise `IndexError`, so functions whose index
accesses are not statically in bounds are embedded in `Option`
(`none` = an uncaught `IndexError`).  Python integers are arbitrary
precision, embedded as `Int`.
-/

/-- The value appended by iteration `j` of the loop `for j in range(1, n)` of
`get_next_row_b`, as an arithmetic expression over total (`getD`) accesses:
`current_row[j] * (2*j - n) + current_row[j-1] * (2*j - 3*n - 1)`. -/
def midEntry (current_row : List Int) (n j : Nat) : Int :=
  current_row.getD j 0 * (2 * (j : Int) - (n : Int)) +
  current_row.getD (j - 1) 0 * (2 * (j : Int) - 3 * (n : Int) - 1)

/-- Embeds the loop `for j in range(1, n)` of `get_next_row_b`, producing the
entries for indices `j, j+1, ..., j+k-1`: each iteration appends
`current_row[j] * (2*j - n) + current_row[j-1] * (2*j - 3*n - 1)`.
`none` if some index access is out of bounds. -/
def mid_entries (current_row : List Int) (n : Nat) : Nat → Nat → Option (List Int)
  | _, 0 => some []
  | j, k + 1 => do
      let x ← current_row[j]?
      let y ← current_row[j - 1]?
      let rest ← mid_entries current_row n (j + 1) k
      pure ((x * (2 * (j : Int) - (n : Int)) +
             y * (2 * (j : Int) - 3 * (n : Int) - 1)) :: rest)

/-- Embeds `get_next_row_b(current_row)`: with `n = len(current_row)`, the new
row is `[-current_row[0] * n]`, then the loop entries for `j in range(1, n)`,
then `current_row[n-1] * (2*n - 3*n - 1)` appended.  `none` embeds an
uncaught `IndexError` (which in Python happens exactly on the empty row). -/
def get_next_row_b (current_row : List Int) : Option (List Int) := do
  let n : Nat := current_row.length
  let c0 ← current_row[0]?
  let mid ← mid_entries current_row n 1 (n - 1)
  let clast ← current_row[n - 1]?
  pure ((-c0 * (n : Int)) ::
        (mid ++ [clast * (2 * (n : Int) - 3 * (n : Int) - 1)]))

/-- Embeds the loop `for n in range(1, num + 1)` of `get_a_until`: starting at
Python loop variable `n` with current row `b`, performs `k` iterations, each
appending `(-1)**n * sum(b)` and replacing `b` by `get_next_row_b(b)`. -/
def get_a_until_go : Nat → List Int → Nat → Option (List Int)
  | _, _, 0 => some []
  | n, b, k + 1 => do
      let term : Int := (-1 : Int) ^ n * b.sum
      let b2 ← get_next_row_b b
      let rest ← get_a_until_go (n + 1) b2 k
      pure (term :: rest)

/-- Embeds `get_a_until(num)`: `b = [-1]`, then the loop
`for n in range(1, num + 1)` (which runs `max 0 num` times). -/
def get_a_until (num : Int) : Option (List Int) :=
  get_a_until_go 1 [-1] num.toNat

/-- Row of `b` after iterating `get_next_row_b` some number of times from a
starting row: `rowIter b i` is the row `i` generations after `b`. -/
def rowIter : List Int → Nat → Option (List Int)
  | b, 0 => some b
  | b, i + 1 => (get_next_row_b b).bind (fun b2 => rowIter b2 i)

/-- The row of `b` held by `get_a_until` at the start of loop iteration
`n = i + 1`, i.e. generation `i + 1`: `rowGen 0 = some [-1]` and each further
generation applies `get_next_row_b`. -/
def rowGen (i : Nat) : Option (List Int) :=
  rowIter [-1] i

/-- The value appended by iteration `n` of the loop `for n in range(3, num)`
of `get_unproven_a_until`:
`4*(n-1)**2*(n-2)*a[n-3] - 2*(3*n-2)*(n-1)*a[n-2] + (4*n-1)*a[n-1]`.
All its accesses are in bounds at every reachable call (`len(a) = n ≥ 3`),
so they are embedded with `List.getD`. -/
def rubey_step (a : List Int) (n : Nat) : Int :=
  4 * ((n : Int) - 1) ^ 2 * ((n : Int) - 2) * a.getD (n - 3) 0 -
  2 * (3 * (n : Int) - 2) * ((n : Int) - 1) * a.getD (n - 2) 0 +
  (4 * (n : Int) - 1) * a.getD (n - 1) 0

/-- Embeds the loop `for n in range(3, num)` of `get_unproven_a_until`:
starting at Python loop variable `n` with accumulated list `a`, performs `k`
iterations, each appending `rubey_step a n`. -/
def get_unproven_loop : List Int → Nat → Nat → List Int
  | a, _, 0 => a
  | a, n, k + 1 => get_unproven_loop (a ++ [rubey_step a n]) (n + 1) k

/-- Embeds `get_unproven_a_until(num)`: base cases for `num <= 0`, `1`, `2`,
otherwise the seed `[1, 3, 13]` extended by the loop `for n in range(3, num)`
(which runs `num - 3` times when `num > 3`). -/
def get_unproven_a_until (num : Int) : List Int :=
  if num ≤ 0 then []
  else if num = 1 then [1]
  else if num = 2 then [1, 3]
  else get_unproven_loop [1, 3, 13] 3 (num.toNat - 3)

/-- The two kinds of exceptions the `__main__` driver of the script can
raise: `IndexError` from a bad list access inside an engine, and
`AssertionError` from one of the driver's own `assert` statements
(the "ValidationError" of the specification). -/
inductive PyError where
  | indexError : PyError
  | assertionError : PyError
deriving DecidableEq, Repr

/-- Embeds the reporting loop `for i in range(len(a))` of `__main__`: walks
the two term lists in step, collecting the printed pairs `(i+1, a[i])` and
raising `AssertionError` on the first position where the terms differ
(`IndexError` if `a_unproven` runs out first, which the preceding length
assertion makes unreachable). -/
def report_loop : Nat → List Int → List Int → Except PyError (List (Nat × Int))
  | _, [], _ => Except.ok []
  | _, _ :: _, [] => Except.error PyError.indexError
  | i, x :: xs, y :: ys =>
      if x = y then
        match report_loop (i + 1) xs ys with
        | Except.error e => Except.error e
        | Except.ok rest => Except.ok ((i + 1, x) :: rest)
      else Except.error PyError.assertionError

/-- Embeds the `__main__` block for a given `num`: computes both term lists,
asserts equal lengths, then reports/asserts term by term.  The `ok` value is
the list of printed pairs `(n, a(n))`. -/
def validate_and_report (num : Int) : Except PyError (List (Nat × Int)) :=
  match get_a_until num with
  | none => Except.error PyError.indexError
  | some a =>
      let a_unproven := get_unproven_a_until num
      if a.length = a_unproven.length then report_loop 0 a a_unproven
      else Except.error PyError.assertionError

/-- `true` on a normally returning run of the driver, `false` on a raised
exception. -/
def exceptOk : Except PyError (List (Nat × Int)) → Bool
  | Except.ok _ => true
  | Except.error _ => false

/-- `getD` reads through a left append when the index is inside the left
part. -/
theorem getD_append_left_of_lt (a t : List Int) (i : Nat) (h : i < a.length) :
    (a ++ t).getD i 0 = a.getD i 0 := by
  simp [List.getD_eq_getElem?_getD, List.getElem?_append_left h]

/-- `getD` at the old length of a list extended by one element reads the new
element. -/
theorem getD_concat_length (a : List Int) (v : Int) :
    (a ++ [v]).getD a.length 0 = v := by
  simp [List.getD_eq_getElem?_getD, List.getElem?_concat_length]

/-- `getD` of `c :: (mid ++ [v])` at the final position reads `v`. -/
theorem getD_cons_append_last (c v : Int) (mid : List Int) :
    (c :: (mid ++ [v])).getD (mid.length + 1) 0 = v := by
  rw [List.getD_cons_succ]
  exact getD_concat_length mid v

/-- The loop of `get_next_row_b` succeeds whenever all its accesses are in
bounds, and produces exactly the mid entries `midEntry` at indices
`j, ..., j+k-1`. -/
theorem mid_entries_eq (current_row : List Int) (n : Nat) :
    ∀ (k j : Nat), 1 ≤ j → j + k ≤ current_row.length →
      mid_entries current_row n j k =
        some ((List.range' j k).map (midEntry current_row n)) := by
  intro k
  induction k with
  | zero => intro j _ _; simp [mid_entries]
  | succ k ih =>
      intro j hj hjk
      have h1 : j < current_row.length := by omega
      have h2 : j - 1 < current_row.length := by omega
      simp only [mid_entries, List.getElem?_eq_getElem h1,
        List.getElem?_eq_getElem h2, ih (j + 1) (by omega) (by omega),
        Option.bind_eq_bind, Option.some_bind, List.range'_succ, List.map_cons]
      simp [midEntry, List.getD_eq_getElem?_getD,
        List.getElem?_eq_getElem h1, List.getElem?_eq_getElem h2]

/-- Full characterisation of `get_next_row_b` on a non-empty row: it succeeds
and returns the head entry, the mapped mid entries and the boundary entry. -/
theorem get_next_row_b_eq (current_row : List Int) (h : current_row ≠ []) :
    get_next_row_b current_row =
      some ((-(current_row.getD 0 0) * (current_row.length : Int)) ::
        ((List.range' 1 (current_row.length - 1)).map
            (midEntry current_row current_row.length) ++
         [current_row.getD (current_row.length - 1) 0 *
            (2 * (current_row.length : Int) -
             3 * (current_row.length : Int) - 1)])) := by
  have hpos : 0 < current_row.length := List.length_pos.mpr h
  have h0 : (0 : Nat) < current_row.length := hpos
  have hl : current_row.length - 1 < current_row.length := by omega
  simp only [get_next_row_b, List.getElem?_eq_getElem h0,
    List.getElem?_eq_getElem hl,
    mid_entries_eq current_row current_row.length (current_row.length - 1) 1
      (by omega) (by omega),
    Option.bind_eq_bind, Option.some_bind]
  simp [List.getD_eq_getElem?_getD, List.getElem?_eq_getElem h0,
    List.getElem?_eq_getElem hl]

/-- `get_next_row_b` on a non-empty row returns a row one element longer,
itself non-empty. -/
theorem get_next_row_b_shape (current_row : List Int) (h : current_row ≠ []) :
    ∃ r, get_next_row_b current_row = some r ∧
      r.length = current_row.length + 1 ∧ r ≠ [] := by
  refine ⟨_, get_next_row_b_eq current_row h, ?_, by simp⟩
  have hpos : 0 < current_row.length := List.length_pos.mpr h
  simp
  omega

/-- Iterating `get_next_row_b` from a non-empty row always succeeds, growing
the row by one element per generation. -/
theorem rowIter_shape (i : Nat) :
    ∀ b : List Int, b ≠ [] →
      ∃ r, rowIter b i = some r ∧ r.length = b.length + i ∧ r ≠ [] := by
  induction i with
  | zero => intro b hb; exact ⟨b, rfl, by omega, hb⟩
  | succ i ih =>
      intro b hb
      obtain ⟨b2, hb2, hlen2, hne2⟩ := get_next_row_b_shape b hb
      obtain ⟨r, hr, hlenr, hner⟩ := ih b2 hne2
      refine ⟨r, ?_, by omega, hner⟩
      simp [rowIter, hb2, hr]

/-- The loop of `get_a_until`, started at Python loop variable `n` on a
non-empty row `b` for `k` iterations, succeeds and returns the list whose
`i`-th entry is `(-1)^(n+i)` times the sum of the row `i` generations after
`b`. -/
theorem get_a_until_go_spec (k : Nat) :
    ∀ (n : Nat) (b : List Int), b ≠ [] →
      ∃ l, get_a_until_go n b k = some l ∧ l.length = k ∧
        ∀ i, i < k →
          ∃ r, rowIter b i = some r ∧
            l.getD i 0 = (-1 : Int) ^ (n + i) * r.sum := by
  induction k with
  | zero => intro n b _; exact ⟨[], rfl, rfl, by omega⟩
  | succ k ih =>
      intro n b hb
      obtain ⟨b2, hb2, _, hne2⟩ := get_next_row_b_shape b hb
      obtain ⟨l, hl, hlen, hidx⟩ := ih (n + 1) b2 hne2
      refine ⟨((-1 : Int) ^ n * b.sum) :: l, ?_, by simp [hlen], ?_⟩
      · simp [get_a_until_go, hb2, hl]
      · intro i hi
        match i with
        | 0 => exact ⟨b, rfl, by simp⟩
        | j + 1 =>
            obtain ⟨r, hr, hval⟩ := hidx j (by omega)
            refine ⟨r, ?_, ?_⟩
            · simp [rowIter, hb2, hr]
            · have : n + 1 + j = n + (j + 1) := by omega
              simpa [this] using hval

/-- `rubey_step` only reads the three positions below `n`, so it is stable
under extending the list beyond position `n - 1`. -/
theorem rubey_step_append (a t : List Int) (n : Nat) (h3 : 3 ≤ n)
    (hlen : n ≤ a.length) : rubey_step (a ++ t) n = rubey_step a n := by
  unfold rubey_step
  rw [getD_append_left_of_lt a t (n - 3) (by omega),
      getD_append_left_of_lt a t (n - 2) (by omega),
      getD_append_left_of_lt a t (n - 1) (by omega)]

/-- Invariant of the loop of `get_unproven_a_until`: starting from a list of
length `n ≥ 3` every entry of which at position `i ≥ 3` already satisfies the
three-term recurrence, after `k` iterations the result extends the start, has
length `n + k`, and every entry at position `3 ≤ i < n + k` satisfies the
recurrence. -/
theorem get_unproven_loop_spec (k : Nat) :
    ∀ (a : List Int) (n : Nat), a.length = n → 3 ≤ n →
      (∀ i, 3 ≤ i → i < n → a.getD i 0 = rubey_step a i) →
      (get_unproven_loop a n k).length = n + k ∧
      (∃ t, get_unproven_loop a n k = a ++ t) ∧
      (∀ i, 3 ≤ i → i < n + k →
        (get_unproven_loop a n k).getD i 0 =
          rubey_step (get_unproven_loop a n k) i) := by
  induction k with
  | zero =>
      intro a n hlen h3 hinv
      exact ⟨by simp [get_unproven_loop, hlen], ⟨[], by simp [get_unproven_loop]⟩,
        by simpa [get_unproven_loop] using hinv⟩
  | succ k ih =>
      intro a n hlen h3 hinv
      have hstep : get_unproven_loop a n (k + 1) =
          get_unproven_loop (a ++ [rubey_step a n]) (n + 1) k := rfl
      have hlen2 : (a ++ [rubey_step a n]).length = n + 1 := by simp [hlen]
      have hinv2 : ∀ i, 3 ≤ i → i < n + 1 →
          (a ++ [rubey_step a n]).getD i 0 =
            rubey_step (a ++ [rubey_step a n]) i := by
        intro i hi3 hilt
        rcases Nat.lt_or_ge i n with hin | hin
        · rw [getD_append_left_of_lt a _ i (by omega),
              rubey_step_append a _ i hi3 (by omega)]
          exact hinv i hi3 hin
        · have hieq : i = n := by omega
          subst hieq
          rw [rubey_step_append a _ i hi3 (by omega)]
          have := getD_concat_length a (rubey_step a i)
          rw [hlen] at this
          exact this
      obtain ⟨hL, ⟨t, ht⟩, hrec⟩ := ih (a ++ [rubey_step a n]) (n + 1) hlen2
        (by omega) hinv2
      rw [hstep]
      refine ⟨by omega, ⟨[rubey_step a n] ++ t, by simp [ht]⟩, ?_⟩
      intro i hi3 hilt
      exact hrec i hi3 (by omega)

/-- Characterisation of the reporting loop on lists of equal length: it
raises exactly the assertion error, and does so exactly when the lists differ
at some position. -/
theorem report_loop_spec :
    ∀ (xs ys : List Int) (i : Nat), xs.length = ys.length →
      ((report_loop i xs ys = Except.error PyError.assertionError) ↔
        ∃ k, k < xs.length ∧ xs.getD k 0 ≠ ys.getD k 0) ∧
      (∀ e, report_loop i xs ys = Except.error e →
        e = PyError.assertionError) := by
  intro xs
  induction xs with
  | nil =>
      intro ys i _
      constructor
      · simp [report_loop]
      · intro e he; simp [report_loop] at he
  | cons x xs ih =>
      intro ys i hlen
      match ys with
      | [] => simp at hlen
      | y :: ys =>
          have hlen' : xs.length = ys.length := by simpa using hlen
          obtain ⟨hiff, herr⟩ := ih ys (i + 1) hlen'
          by_cases hxy : x = y
          · cases hrec : report_loop (i + 1) xs ys with
            | error e =>
                have he : e = PyError.assertionError := herr e hrec
                subst he
                have hmis : ∃ k, k < xs.length ∧ xs.getD k 0 ≠ ys.getD k 0 :=
                  hiff.mp hrec
                have hstep : report_loop i (x :: xs) (y :: ys) =
                    Except.error PyError.assertionError := by
                  simp only [report_loop, if_pos hxy, hrec]
                constructor
                · rw [hstep]
                  constructor
                  · intro _
                    obtain ⟨k, hk, hne⟩ := hmis
                    exact ⟨k + 1, by simp only [List.length_cons]; omega,
                      by simpa using hne⟩
                  · intro _; rfl
                · intro e' he'
                  rw [hstep] at he'
                  exact (Except.error.inj he').symm
            | ok r =>
                have hstep : report_loop i (x :: xs) (y :: ys) =
                    Except.ok ((i + 1, x) :: r) := by
                  simp only [report_loop, if_pos hxy, hrec]
                constructor
                · rw [hstep]
                  constructor
                  · intro hcontra; exact Except.noConfusion hcontra
                  · rintro ⟨k, hk, hne⟩
                    exfalso
                    match k with
                    | 0 => rw [List.getD_cons_zero, List.getD_cons_zero] at hne
                           exact hne hxy
                    | k + 1 =>
                        have hm : ∃ k, k < xs.length ∧
                            xs.getD k 0 ≠ ys.getD k 0 :=
                          ⟨k, by simp only [List.length_cons] at hk; omega,
                            by simpa using hne⟩
                        have hcon := hiff.mpr hm
                        rw [hcon] at hrec
                        exact Except.noConfusion hrec
                · intro e' he'
                  rw [hstep] at he'
                  exact Except.noConfusion he'
          · have hstep : report_loop i (x :: xs) (y :: ys) =
                Except.error PyError.assertionError := by
              simp only [report_loop, if_neg hxy]
            constructor
            · rw [hstep]
              exact ⟨fun _ => ⟨0, by simp, by simpa using hxy⟩, fun _ => rfl⟩
            · intro e' he'
              rw [hstep] at he'
              exact (Except.error.inj he').symm

/-- C3: for every non-negative count, `get_a_until` returns a sequence of
length exactly `count` whose `n`-th element (1-based), for `n` in
`1..count`, equals `(-1)^n` times the sum of all elements of the row at
generation `n`, where the row starts as `[-1]` at generation 1 (`rowGen 0`)
and is advanced by `get_next_row_b` between generations. -/
theorem get_a_until_correct (count : Nat) :
    ∃ l, get_a_until (count : Int) = some l ∧ l.length = count ∧
      ∀ n, 1 ≤ n → n ≤ count →
        ∃ r, rowGen (n - 1) = some r ∧
          l.getD (n - 1) 0 = (-1 : Int) ^ n * r.sum := by
  obtain ⟨l, hl, hlen, hidx⟩ := get_a_until_go_spec count 1 [-1] (by simp)
  refine ⟨l, ?_, hlen, ?_⟩
  · simpa [get_a_until] using hl
  · intro n h1 h2
    obtain ⟨r, hr, hval⟩ := hidx (n - 1) (by omega)
    refine ⟨r, hr, ?_⟩
    have hn : 1 + (n - 1) = n := by omega
    rwa [hn] at hval

/-- C10: `get_next_row_b` never hits an out-of-bounds access on a non-empty
row; every row `get_a_until` feeds to it (each generation `rowGen i`) is
non-empty; hence `get_a_until` itself never hits the out-of-bounds branch,
for any count. -/
theorem no_index_error :
    (∀ current_row : List Int, current_row ≠ [] →
      (get_next_row_b current_row).isSome = true) ∧
    (∀ i, ∃ r, rowGen i = some r ∧ r ≠ []) ∧
    (∀ num : Int, (get_a_until num).isSome = true) := by
  refine ⟨?_, ?_, ?_⟩
  · intro row h
    obtain ⟨r, hr, -, -⟩ := get_next_row_b_shape row h
    simp [hr]
  · intro i
    obtain ⟨r, hr, -, hne⟩ := rowIter_shape i [-1] (by simp)
    exact ⟨r, hr, hne⟩
  · intro num
    obtain ⟨l, hl, -, -⟩ := get_a_until_go_spec num.toNat 1 [-1] (by simp)
    simp [get_a_until, hl]

/-- C9: for every negative count, both engines return the empty sequence and
raise no error. -/
theorem negative_count_empty (num : Int) (h : num < 0) :
    get_a_until num = some [] ∧ get_unproven_a_until num = [] := by
  have ht : num.toNat = 0 := Int.toNat_of_nonpos (le_of_lt h)
  constructor
  · simp [get_a_until, ht, get_a_until_go]
  · simp [get_unproven_a_until, le_of_lt h]

/-- Witness for C9 at `num = -1`. -/
theorem negative_count_empty_witness :
    (-1 : Int) < 0 ∧
      (get_a_until (-1) = some [] ∧ get_unproven_a_until (-1) = []) :=
  ⟨by decide, negative_count_empty (-1) (by decide)⟩

/-- C8: the driver raises the assertion failure exactly when the two engines
disagree in length or at some position; the proven engine itself never
raises (its result is always `some`), and any exception the driver raises is
the assertion failure, never an `IndexError` from an engine. -/
theorem validate_and_report_correct (num : Int) :
    ∃ a, get_a_until num = some a ∧
      ((validate_and_report num = Except.error PyError.assertionError) ↔
        (a.length ≠ (get_unproven_a_until num).length ∨
         ∃ k, k < a.length ∧
           a.getD k 0 ≠ (get_unproven_a_until num).getD k 0)) ∧
      (∀ e, validate_and_report num = Except.error e →
        e = PyError.assertionError) := by
  obtain ⟨a, ha, -, -⟩ := get_a_until_go_spec num.toNat 1 [-1] (by simp)
  have ha' : get_a_until num = some a := ha
  refine ⟨a, ha', ?_⟩
  have hunfold : validate_and_report num =
      (if a.length = (get_unproven_a_until num).length then
        report_loop 0 a (get_unproven_a_until num)
      else Except.error PyError.assertionError) := by
    unfold validate_and_report
    rw [ha']
  by_cases hlen : a.length = (get_unproven_a_until num).length
  · rw [if_pos hlen] at hunfold
    obtain ⟨hiff, herr⟩ := report_loop_spec a (get_unproven_a_until num) 0 hlen
    constructor
    · rw [hunfold]
      constructor
      · intro he
        exact Or.inr (hiff.mp he)
      · rintro (hc | hc)
        · exact absurd hlen hc
        · exact hiff.mpr hc
    · intro e he
      rw [hunfold] at he
      exact herr e he
  · rw [if_neg hlen] at hunfold
    constructor
    · rw [hunfold]
      exact ⟨fun _ => Or.inl hlen, fun _ => rfl⟩
    · intro e he
      rw [hunfold] at he
      exact (Except.error.inj he).symm

/-- C2: on a row of `n ≥ 1` integers, `get_next_row_b` returns a row of
exactly `n + 1` integers with `next_row[0] = -current_row[0]*n`,
`next_row[j] = current_row[j]*(2j - n) + current_row[j-1]*(2j - 3n - 1)` for
`j` in `1..n-1`, and `next_row[n] = current_row[n-1]*(2n - 3n - 1)`;
consequently the row at generation `m` (i.e. `rowGen (m - 1)`) has length
`m`. -/
theorem get_next_row_b_correct (current_row : List Int)
    (h : current_row ≠ []) :
    ∃ next_row, get_next_row_b current_row = some next_row ∧
      next_row.length = current_row.length + 1 ∧
      next_row.getD 0 0 =
        -(current_row.getD 0 0) * (current_row.length : Int) ∧
      (∀ j, 1 ≤ j → j < current_row.length →
        next_row.getD j 0 =
          current_row.getD j 0 *
              (2 * (j : Int) - (current_row.length : Int)) +
          current_row.getD (j - 1) 0 *
              (2 * (j : Int) - 3 * (current_row.length : Int) - 1)) ∧
      next_row.getD current_row.length 0 =
        current_row.getD (current_row.length - 1) 0 *
          (2 * (current_row.length : Int) -
           3 * (current_row.length : Int) - 1) ∧
      (∀ m, 1 ≤ m → ∃ r, rowGen (m - 1) = some r ∧ r.length = m) := by
  have hpos : 0 < current_row.length := List.length_pos.mpr h
  refine ⟨_, get_next_row_b_eq current_row h, ?_, ?_, ?_, ?_, ?_⟩
  · simp
    omega
  · simp
  · intro j hj1 hjL
    obtain ⟨j', rfl⟩ : ∃ j', j = j' + 1 := ⟨j - 1, by omega⟩
    rw [List.getD_cons_succ,
        getD_append_left_of_lt _ _ j' (by simp; omega),
        List.getD_eq_getElem?_getD,
        List.getElem?_eq_getElem (by simp; omega)]
    simp only [List.getElem_map, List.getElem_range', Option.getD_some]
    simp [midEntry, Nat.add_comm]
  · have key := getD_cons_append_last
      (-(current_row.getD 0 0) * (current_row.length : Int))
      (current_row.getD (current_row.length - 1) 0 *
        (2 * (current_row.length : Int) -
         3 * (current_row.length : Int) - 1))
      ((List.range' 1 (current_row.length - 1)).map
        (midEntry current_row current_row.length))
    have hidx : ((List.range' 1 (current_row.length - 1)).map
        (midEntry current_row current_row.length)).length + 1 =
          current_row.length := by
      simp
      omega
    rw [hidx] at key
    exact key
  · intro m hm
    obtain ⟨r, hr, hlen, -⟩ := rowIter_shape (m - 1) [-1] (by simp)
    exact ⟨r, hr, by simp at hlen; omega⟩

/-- Witness for C2 at the concrete row `[4, 7]`. -/
theorem get_next_row_b_correct_witness :
    ([4, 7] : List Int) ≠ [] ∧
      (∃ next_row, get_next_row_b [4, 7] = some next_row ∧
        next_row.length = ([4, 7] : List Int).length + 1 ∧
        next_row.getD 0 0 =
          -(([4, 7] : List Int).getD 0 0) *
            (([4, 7] : List Int).length : Int) ∧
        (∀ j, 1 ≤ j → j < ([4, 7] : List Int).length →
          next_row.getD j 0 =
            ([4, 7] : List Int).getD j 0 *
                (2 * (j : Int) - (([4, 7] : List Int).length : Int)) +
            ([4, 7] : List Int).getD (j - 1) 0 *
                (2 * (j : Int) -
                 3 * (([4, 7] : List Int).length : Int) - 1)) ∧
        next_row.getD ([4, 7] : List Int).length 0 =
          ([4, 7] : List Int).getD (([4, 7] : List Int).length - 1) 0 *
            (2 * (([4, 7] : List Int).length : Int) -
             3 * (([4, 7] : List Int).length : Int) - 1) ∧
        (∀ m, 1 ≤ m → ∃ r, rowGen (m - 1) = some r ∧ r.length = m)) :=
  ⟨by decide, get_next_row_b_correct [4, 7] (by decide)⟩

/-- C7: for every `N ≥ 1`, `get_a_until N` is a prefix of
`get_a_until (N+1)`: the first `N` elements of the longer run equal the
shorter run element-wise. -/
theorem get_a_until_prefix (N : Nat) (h : 1 ≤ N) :
    ∃ l1 l2, get_a_until (N : Int) = some l1 ∧
      get_a_until ((N : Int) + 1) = some l2 ∧ l2.take N = l1 := by
  obtain ⟨l1, hl1, hlen1, hidx1⟩ := get_a_until_go_spec N 1 [-1] (by simp)
  obtain ⟨l2, hl2, hlen2, hidx2⟩ :=
    get_a_until_go_spec (N + 1) 1 [-1] (by simp)
  refine ⟨l1, l2, by simpa [get_a_until] using hl1, ?_, ?_⟩
  · have ht : ((N : Int) + 1).toNat = N + 1 := by omega
    simpa [get_a_until, ht] using hl2
  · apply List.ext_getElem?
    intro n
    rcases Nat.lt_or_ge n N with hn | hn
    · rw [List.getElem?_take_of_lt hn]
      obtain ⟨r1, hr1, hv1⟩ := hidx1 n hn
      obtain ⟨r2, hr2, hv2⟩ := hidx2 n (by omega)
      have hr : r1 = r2 := by
        rw [hr1] at hr2
        exact Option.some.inj hr2
      have e1 : l1[n]? = some (l1.getD n 0) := by
        simp [List.getD_eq_getElem?_getD,
          List.getElem?_eq_getElem (show n < l1.length by omega)]
      have e2 : l2[n]? = some (l2.getD n 0) := by
        simp [List.getD_eq_getElem?_getD,
          List.getElem?_eq_getElem (show n < l2.length by omega)]
      rw [e1, e2, hv1, hv2, hr]
    · have e1 : l1[n]? = none := by
        rw [List.getElem?_eq_none]
        omega
      have e2 : (l2.take N)[n]? = none := by
        rw [List.getElem?_eq_none]
        simp
        omega
      rw [e1, e2]

/-- Witness for C7 at `N = 3`. -/
theorem get_a_until_prefix_witness :
    1 ≤ 3 ∧ ∃ l1 l2, get_a_until ((3 : Nat) : Int) = some l1 ∧
      get_a_until (((3 : Nat) : Int) + 1) = some l2 ∧ l2.take 3 = l1 :=
  ⟨by decide, get_a_until_prefix 3 (by decide)⟩

/-- C4: `get_unproven_a_until` returns `[]` for counts `≤ 0`, `[1]` for 1,
`[1, 3]` for 2, `[1, 3, 13]` for 3, and for counts `≥ 4` extends the seed
`[1, 3, 13]` so that every element at 0-based index `i` in `3..count-1`
satisfies
`a[i] = 4(i-1)²(i-2)·a[i-3] - 2(3i-2)(i-1)·a[i-2] + (4i-1)·a[i-1]`. -/
theorem get_unproven_a_until_correct (count : Nat) (h4 : 4 ≤ count) :
    (∀ m : Int, m ≤ 0 → get_unproven_a_until m = []) ∧
    get_unproven_a_until 1 = [1] ∧
    get_unproven_a_until 2 = [1, 3] ∧
    get_unproven_a_until 3 = [1, 3, 13] ∧
    (get_unproven_a_until (count : Int)).length = count ∧
    (get_unproven_a_until (count : Int)).take 3 = [1, 3, 13] ∧
    (∀ i, 3 ≤ i → i < count →
      (get_unproven_a_until (count : Int)).getD i 0 =
        4 * ((i : Int) - 1) ^ 2 * ((i : Int) - 2) *
            (get_unproven_a_until (count : Int)).getD (i - 3) 0 -
        2 * (3 * (i : Int) - 2) * ((i : Int) - 1) *
            (get_unproven_a_until (count : Int)).getD (i - 2) 0 +
        (4 * (i : Int) - 1) *
            (get_unproven_a_until (count : Int)).getD (i - 1) 0) := by
  have hunfold : get_unproven_a_until (count : Int) =
      get_unproven_loop [1, 3, 13] 3 (count - 3) := by
    rw [get_unproven_a_until, if_neg (by omega), if_neg (by omega),
        if_neg (by omega)]
    simp
  obtain ⟨hL, ⟨t, ht⟩, hrec⟩ := get_unproven_loop_spec (count - 3)
    [1, 3, 13] 3 rfl (by omega)
    (fun i hi1 hi2 => absurd hi2 (by omega))
  refine ⟨?_, by decide, by decide, by decide, ?_, ?_, ?_⟩
  · intro m hm
    simp [get_unproven_a_until, if_pos hm]
  · rw [hunfold, hL]
    omega
  · rw [hunfold, ht]
    exact List.take_left' rfl
  · intro i hi3 hilt
    have hstep := hrec i hi3 (by omega)
    rw [hunfold]
    unfold rubey_step at hstep
    exact hstep

/-- Witness for C4 at `count = 5`. -/
theorem get_unproven_a_until_correct_witness :
    4 ≤ 5 ∧
      ((∀ m : Int, m ≤ 0 → get_unproven_a_until m = []) ∧
      get_unproven_a_until 1 = [1] ∧
      get_unproven_a_until 2 = [1, 3] ∧
      get_unproven_a_until 3 = [1, 3, 13] ∧
      (get_unproven_a_until ((5 : Nat) : Int)).length = 5 ∧
      (get_unproven_a_until ((5 : Nat) : Int)).take 3 = [1, 3, 13] ∧
      (∀ i, 3 ≤ i → i < 5 →
        (get_unproven_a_until ((5 : Nat) : Int)).getD i 0 =
          4 * ((i : Int) - 1) ^ 2 * ((i : Int) - 2) *
              (get_unproven_a_until ((5 : Nat) : Int)).getD (i - 3) 0 -
          2 * (3 * (i : Int) - 2) * ((i : Int) - 1) *
              (get_unproven_a_until ((5 : Nat) : Int)).getD (i - 2) 0 +
          (4 * (i : Int) - 1) *
              (get_unproven_a_until ((5 : Nat) : Int)).getD (i - 1) 0)) :=
  ⟨by decide, get_unproven_a_until_correct 5 (by decide)⟩

set_option maxRecDepth 40000 in
set_option maxHeartbeats 8000000 in
/-- C1: for every count `N` in `1..50` the proven and the conjectured engine
produce identical results (`get_a_until N` succeeds and equals
`get_unproven_a_until N` in length and at every position), so the validating
driver raises no exception. -/
theorem engines_agree : ∀ (N : Nat), N ≤ 50 → 1 ≤ N →
    get_a_until (N : Int) = some (get_unproven_a_until (N : Int)) ∧
    exceptOk (validate_and_report (N : Int)) = true := by decide

/-- Witness for C1 at `N = 50`. -/
theorem engines_agree_witness :
    (50 : Nat) ≤ 50 ∧ 1 ≤ (50 : Nat) ∧
      (get_a_until ((50 : Nat) : Int) =
          some (get_unproven_a_until ((50 : Nat) : Int)) ∧
       exceptOk (validate_and_report ((50 : Nat) : Int)) = true) :=
  ⟨by decide, by decide, engines_agree 50 (by decide) (by decide)⟩

/-- Counterexample to C5 as stated: neither engine returns
`[1, 3, 13, 73, 501]` for count 5 (the code's fourth and fifth terms differ
from the claimed ones). -/
theorem known_values_counterexample :
    ¬(get_a_until 5 = some [1, 3, 13, 73, 501] ∧
      get_unproven_a_until 5 = [1, 3, 13, 73, 501]) := by decide

/-- C5 (amended): both engines return exactly `[1, 3, 13, 75, 561]` for
count 5. -/
theorem known_values_amended :
    get_a_until 5 = some [1, 3, 13, 75, 561] ∧
    get_unproven_a_until 5 = [1, 3, 13, 75, 561] := by decide

/-- Counterexample to C6 as stated: `get_next_row_b [-1]` is not
`[1, 0]`. -/
theorem advance_row_base_counterexample :
    get_next_row_b [-1] ≠ some [1, 0] := by decide

/-- C6 (amended): `get_next_row_b` applied to the single-element row `[-1]`
returns `[1, 2]`. -/
theorem advance_row_base :
    get_next_row_b [-1] = some [1, 2] := by decide
